import Mathlib

/-!
Shallow embedding of the aggregation core of the `ethpandaops/cartographoor`
repository (Go), covering:

* `pkg/validatorranges/parser.go` — the Ansible-inventory range parser;
* `pkg/validatorranges/aggregator.go` — the cross-source range aggregator;
* the inventory liveness validator (`ValidateClient`, `doHTTPHead`);
* the discovery orchestrator result-collection loop (`executeDiscovery`).

Go maps are modelled as association lists (`List (String × α)`) with
update-or-insert (`setA`) and first-match lookup (`lookupA`); Go slices are
Lean lists; Go `int` is `Int`; nil-able Go pointers (`*ValidatorRange`
elements, `*Metadata`, `*ValidatorRanges` inputs) are `Option`s; external
effects (DNS lookups, HTTP HEAD probes, adapter `Discover` calls) are passed
in as explicit oracle functions or pre-collected results.  Third-party
library behaviour (the `gopkg.in/ini.v1` INI decoder) is abstracted: the
parser is given the decoded section list the library would return.
-/

namespace Cartographoor

/-! ### Go standard-library string helpers

All helpers recurse structurally over the character list of the string, so
that every definition evaluates inside the kernel on concrete inputs. -/

/-- Split a character list at every separator satisfying `p` (separators are
consumed; empty pieces are kept, as Go `strings.Split` keeps them). -/
def splitChars (p : Char → Bool) : List Char → List (List Char)
  | [] => [[]]
  | c :: t =>
    if p c then [] :: splitChars p t
    else
      match splitChars p t with
      | [] => [[c]]
      | w :: ws => (c :: w) :: ws

/-- Model of Go `strings.Fields`: the non-empty pieces between runs of
whitespace (ASCII whitespace; Go additionally treats `\v`, `\f` and Unicode
spaces as separators, which the repository's inputs never exercise). -/
def goFields (s : String) : List String :=
  ((splitChars Char.isWhitespace s.data).filter (fun w => w ≠ [])).map String.mk

/-- Model of Go `strings.Split s sep` for the single-character separators
the repository uses (`"="`, `"@"`, `"_"`). -/
def goSplit (s : String) (sep : Char) : List String :=
  (splitChars (fun c => c = sep) s.data).map String.mk

/-- Model of Go `strings.HasPrefix`. -/
def goHasPrefix (s pre : String) : Bool :=
  pre.data.isPrefixOf s.data

/-- Model of Go `strings.Contains` over the character list of the string. -/
def goContainsAux (sub : List Char) : List Char → Bool
  | [] => sub.isPrefixOf []
  | c :: t => sub.isPrefixOf (c :: t) || goContainsAux sub t

/-- Model of Go `strings.Contains s sub`. -/
def goContains (s sub : String) : Bool :=
  goContainsAux sub.data s.data

/-- Model of Go `strings.Index s sep` for a single-character separator:
position of the first occurrence, or none (Go returns −1). -/
def goIndexChar (sep : Char) : List Char → Option Nat
  | [] => none
  | c :: t => if c = sep then some 0 else (goIndexChar sep t).map (· + 1)

/-- Split at the first occurrence of `sep`: the part before it and, when
`sep` occurs, the part after it.  Models Go `strings.SplitN(s, sep, 2)`. -/
def breakAt (sep : Char) : List Char → List Char × Option (List Char)
  | [] => ([], none)
  | c :: t =>
    if c = sep then ([], some t)
    else
      let r := breakAt sep t
      (c :: r.1, r.2)

/-- Digit run to number. -/
def digitsToNat (l : List Char) : Nat :=
  l.foldl (fun acc c => acc * 10 + (c.toNat - 48)) 0

/-- Sign-applied digit parsing for `goAtoi`. -/
def goAtoiCore (sign : Int) (digits : List Char) : Option Int :=
  if digits = [] then none
  else if digits.all Char.isDigit then some (sign * (digitsToNat digits : Int))
  else none

/-- Model of Go `strconv.Atoi` (machine-`int` overflow aside): optional sign
followed by at least one decimal digit. -/
def goAtoi (s : String) : Option Int :=
  match s.data with
  | [] => none
  | c :: rest =>
    if c = '-' then goAtoiCore (-1) rest
    else if c = '+' then goAtoiCore 1 rest
    else goAtoiCore 1 (c :: rest)

/-- Model of Go `strings.ToLower` (ASCII). -/
def goToLower (s : String) : String :=
  String.mk (s.data.map Char.toLower)

/-! ### Association-list model of Go maps -/

/-- First-match lookup in an association list (Go map read). -/
def lookupA {α : Type} (m : List (String × α)) (k : String) : Option α :=
  match m with
  | [] => none
  | (k', v) :: rest => if k' = k then some v else lookupA rest k

/-- Update-or-insert (Go map assignment `m[k] = v`). -/
def setA {α : Type} (m : List (String × α)) (k : String) (v : α) : List (String × α) :=
  match m with
  | [] => [(k, v)]
  | (k', v') :: rest => if k' = k then (k, v) :: rest else (k', v') :: setA rest k v

/-! ### Data model (`pkg/validatorranges/types.go`) -/

/-- Go `map[string]interface{}` attribute values: the parser stores either a
string or a boolean. -/
inductive AttrVal
  | str (s : String)
  | boolean (b : Bool)
deriving DecidableEq, Repr

/-- `ValidatorRange` — half-open range of validator indices. -/
structure ValidatorRange where
  Start : Int
  End : Int
deriving DecidableEq, Repr

/-- `Node` — one host entry with groups, tags, attributes and ranges.
`ValidatorRanges` is Go `[]*ValidatorRange`, whose elements may be nil. -/
structure Node where
  Groups : List String
  Tags : List String
  Attributes : List (String × AttrVal)
  ValidatorRanges : List (Option ValidatorRange)
  Source : String
deriving DecidableEq, Repr

/-- `ValidatorSummary`. -/
structure ValidatorSummary where
  TotalCount : Int
deriving DecidableEq, Repr

/-- `Metadata`. -/
structure Metadata where
  NetworkName : String
  Sources : List String
deriving DecidableEq, Repr

/-- `ValidatorRanges` — one RangeSet.  The Go struct holds pointers
`*ValidatorSummary`/`*Metadata`; the aggregator nil-checks only `Metadata`,
so only that field is an `Option` here. -/
structure ValidatorRanges where
  Nodes : List (String × Node)
  Validators : ValidatorSummary
  Groups : List (String × List String)
  Tags : List (String × List String)
  Metadata : Option Metadata
deriving DecidableEq, Repr

/-! ### Parser (`pkg/validatorranges/parser.go`) -/

/-- `contains` from parser.go: membership in a string slice. -/
def containsStr (slice : List String) (str : String) : Bool :=
  slice.any (fun s => s = str)

/-- `snakeToCamel` from parser.go: split on `_`, keep the first part, then
append each later non-empty part with its first character upper-cased. -/
def snakeToCamel (s : String) : String :=
  match splitChars (fun c => c = '_') s.data with
  | [] => s
  | p0 :: rest =>
    String.mk
      (rest.foldl
        (fun result p =>
          match p with
          | [] => result
          | c :: cs => result ++ Char.toUpper c :: cs)
        p0)

/-- The per-group body of `extractTags`: each substring match appends its
tag, in source order. -/
def tagsForGroup (group : String) : List String :=
  (if goContains group "besu" then ["el:besu"] else []) ++
  (if goContains group "geth" then ["el:geth"] else []) ++
  (if goContains group "nethermind" then ["el:nethermind"] else []) ++
  (if goContains group "erigon" then ["el:erigon"] else []) ++
  (if goContains group "reth" then ["el:reth"] else []) ++
  (if goContains group "lighthouse" then ["cl:lighthouse"] else []) ++
  (if goContains group "prysm" then ["cl:prysm"] else []) ++
  (if goContains group "teku" then ["cl:teku"] else []) ++
  (if goContains group "nimbus" then ["cl:nimbus"] else []) ++
  (if goContains group "lodestar" then ["cl:lodestar"] else []) ++
  (if goContains group "grandine" then ["cl:grandine"] else []) ++
  (if goContains group "validator" then ["vc:validator"] else [])

/-- `extractTags` from parser.go. -/
def extractTags (groups : List String) : List String :=
  groups.foldl (fun tags group => tags ++ tagsForGroup group) []

/-- Scanner state of `extractValidatorRange` (`start`, `end`, `hasStart`,
`hasEnd`). -/
structure RangeScan where
  start : Int
  stop : Int
  hasStart : Bool
  hasEnd : Bool

/-- One loop iteration of `extractValidatorRange` over a whitespace field of
the value. -/
def scanRangeField (rangeOffset : Int) (st : RangeScan) (attr : String) : RangeScan :=
  if goHasPrefix attr "validator_start=" then
    match goSplit attr '=' with
    | [_, p1] =>
      match goAtoi p1 with
      | some v => { st with start := v + rangeOffset, hasStart := true }
      | none => st
    | _ => st
  else if goHasPrefix attr "validator_end=" then
    match goSplit attr '=' with
    | [_, p1] =>
      match goAtoi p1 with
      | some v => { st with stop := v + rangeOffset, hasEnd := true }
      | none => st
    | _ => st
  else st

/-- `extractValidatorRange` from parser.go, over the key's value string. -/
def extractValidatorRange (value : String) (rangeOffset : Int) : Option ValidatorRange :=
  let st := (goFields value).foldl (scanRangeField rangeOffset) ⟨0, 0, false, false⟩
  if st.hasStart && st.hasEnd && st.start ≤ st.stop then
    some ⟨st.start, st.stop⟩
  else
    none

/-- One iteration of the attribute-storing loop of `parseSection` (the
`for _, attr := range strings.Fields(key.Value())` body). -/
def attrStep (node : Node) (attr : String) : Node :=
  if goContains attr "=" then
    -- strings.SplitN(attr, "=", 2): the part before the first "=" and the
    -- rest; len(parts) == 2 exactly when "=" occurs in attr
    match breakAt '=' attr.data with
    | (p0chars, some p1chars) =>
      let p0 := String.mk p0chars
      let p1 := String.mk p1chars
      if p0 = "validator_start" || p0 = "validator_end" then node
      else
        let camelKey := snakeToCamel p0
        let camelKey :=
          if camelKey = "ethereumNodeClSupernodeEnabled" then "isClSupernode" else camelKey
        let v :=
          if goToLower p1 = "true" then AttrVal.boolean true
          else if goToLower p1 = "false" then AttrVal.boolean false
          else AttrVal.str p1
        { node with Attributes := setA node.Attributes camelKey v }
    | (_, none) => node
  else node

/-- The attribute-storing loop of `parseSection`. -/
def parseAttrs (node : Node) (value : String) : Node :=
  (goFields value).foldl attrStep node

/-- One INI key (name and value) as decoded by the third-party INI library. -/
structure IniKey where
  name : String
  value : String
deriving DecidableEq, Repr

/-- One INI section as decoded by the third-party INI library. -/
structure IniSection where
  name : String
  keys : List IniKey
deriving DecidableEq, Repr

/-- Node identifier of a key: the first whitespace-delimited token of the key
name (`keyName[:idx]` when `strings.Index(keyName, " ") > 0`; a missing or
leading space keeps the whole key name). -/
def nodeNameOf (keyName : String) : String :=
  match goIndexChar ' ' keyName.data with
  | some idx => if idx > 0 then String.mk (keyName.data.take idx) else keyName
  | none => keyName

/-- Add one tag to a node unless already present (the
`if !contains(node.Tags, tag)` body of `parseSection`). -/
def addTag (n : Node) (tag : String) : Node :=
  if containsStr n.Tags tag then n else { n with Tags := n.Tags ++ [tag] }

/-- Add the section's group name to a node unless already present. -/
def addGroup (n : Node) (groupName : String) : Node :=
  if containsStr n.Groups groupName then n else { n with Groups := n.Groups ++ [groupName] }

/-- Get the node for a name, or create a fresh one carrying the source. -/
def getOrCreate (nodes : List (String × Node)) (nodeName sourceName : String) : Node :=
  match lookupA nodes nodeName with
  | some n => n
  | none =>
    { Groups := [], Tags := [], Attributes := [], ValidatorRanges := [], Source := sourceName }

/-- The `if key.Value() != ""` part of the per-key body: append the
extracted range (when one is produced) and store the attributes. -/
def processValue (rangeOffset : Int) (value : String) (node : Node) : Node :=
  if value ≠ "" then
    parseAttrs
      (match extractValidatorRange value rangeOffset with
        | some vr => { node with ValidatorRanges := node.ValidatorRanges ++ [some vr] }
        | none => node)
      value
  else node

/-- The per-key body of `parseSection`: get-or-create the node, add the
group and section tags, extract the range and the attributes. -/
def processKey (groupName : String) (sectionTags : List String) (sourceName : String)
    (rangeOffset : Int) (nodes : List (String × Node)) (key : IniKey) :
    List (String × Node) :=
  let nodeName := nodeNameOf key.name
  let node := getOrCreate nodes nodeName sourceName
  let node := addGroup node groupName
  let node := sectionTags.foldl addTag node
  let node := processValue rangeOffset key.value node
  setA nodes nodeName node

/-- `parseSection` from parser.go (`groupName := sectionName`,
`sectionTags := extractTags([]string{groupName})`). -/
def parseSection (sec : IniSection) (nodes : List (String × Node)) (sourceName : String)
    (rangeOffset : Int) : List (String × Node) :=
  sec.keys.foldl (processKey sec.name (extractTags [sec.name]) sourceName rangeOffset) nodes

/-- The index-entry append of `buildGroupsAndTags` (create-empty then
append node name). -/
def addToIndex (index : List (String × List String)) (key nodeName : String) :
    List (String × List String) :=
  match lookupA index key with
  | some lst => setA index key (lst ++ [nodeName])
  | none => setA index key [nodeName]

/-- One node's contribution to the group and tag indices in
`buildGroupsAndTags`. -/
def buildStep (gt : List (String × List String) × List (String × List String))
    (entry : String × Node) :
    List (String × List String) × List (String × List String) :=
  (entry.2.Groups.foldl (fun g grp => addToIndex g grp entry.1) gt.1,
   entry.2.Tags.foldl (fun t tg => addToIndex t tg entry.1) gt.2)

/-- `buildGroupsAndTags` from parser.go. -/
def buildGroupsAndTags (nodes : List (String × Node)) :
    List (String × List String) × List (String × List String) :=
  nodes.foldl buildStep ([], [])

/-- One range's contribution to a running total (nil ranges skipped, as in
`if vRange != nil`). -/
def rangeTotalStep (t : Int) (r : Option ValidatorRange) : Int :=
  match r with
  | some vRange => t + (vRange.End - vRange.Start)
  | none => t

/-- `calculateTotalValidators` from parser.go. -/
def calculateTotalValidators (nodes : List (String × Node)) : Int :=
  nodes.foldl (fun total entry => entry.2.ValidatorRanges.foldl rangeTotalStep total) 0

/-- One section's step in the `cfg.Sections()` loop of `ParseInventory`:
the `DEFAULT` section is skipped. -/
def sectionStep (sourceName : String) (rangeOffset : Int) (nodes : List (String × Node))
    (sec : IniSection) : List (String × Node) :=
  if sec.name = "DEFAULT" then nodes
  else parseSection sec nodes sourceName rangeOffset

/-- `ParseInventory` from parser.go, from the section list the third-party
INI decoder (`gopkg.in/ini.v1`) yields for the pre-processed document:
skip `DEFAULT`, parse each section, drop nodes without ranges, rebuild the
indices and the total from the survivors. -/
def ParseInventory (sections : List IniSection) (sourceURL sourceName : String)
    (rangeOffset : Int) : ValidatorRanges :=
  let nodes := sections.foldl (sectionStep sourceName rangeOffset) []
  let nodesWithValidators := nodes.filter (fun e => e.2.ValidatorRanges.length > 0)
  let gt := buildGroupsAndTags nodesWithValidators
  let totalValidators := calculateTotalValidators nodesWithValidators
  { Nodes := nodesWithValidators
    Validators := { TotalCount := totalValidators }
    Groups := gt.1
    Tags := gt.2
    Metadata := some { NetworkName := "", Sources := [sourceURL] } }

/-! ### Aggregator (`pkg/validatorranges/aggregator.go`) -/

/-- The deep copy performed by `mergeNodes` before inserting a node (slice
and map contents copied; in the value model this reconstructs the record). -/
def deepCopyNode (node : Node) : Node :=
  { Groups := node.Groups
    Tags := node.Tags
    Attributes := node.Attributes
    ValidatorRanges := node.ValidatorRanges
    Source := node.Source }

/-- One iteration of the `mergeNodes` loop: skip an already-present node
name (after a diagnostic), otherwise insert the deep copy. -/
def mergeNodeStep (target : List (String × Node)) (entry : String × Node) :
    List (String × Node) :=
  match lookupA target entry.1 with
  | some _ => target -- duplicate node name: warn and skip
  | none => target ++ [(entry.1, deepCopyNode entry.2)]

/-- `mergeNodes` from aggregator.go: add source nodes into the target map,
logging and skipping a name already present. -/
def mergeNodes (target source : List (String × Node)) : List (String × Node) :=
  source.foldl mergeNodeStep target

/-- `recalculateTotals` from aggregator.go (nil ranges skipped), returning
the updated RangeSet instead of mutating it. -/
def recalculateTotals (vr : ValidatorRanges) : ValidatorRanges :=
  { vr with
    Validators :=
      { TotalCount :=
          vr.Nodes.foldl (fun total entry => entry.2.ValidatorRanges.foldl rangeTotalStep total) 0 } }

/-- `deduplicateSlice` from aggregator.go. -/
def deduplicateSlice (slice : List String) : List String :=
  (slice.foldl
      (fun acc s =>
        if containsStr acc.1 s then acc else (acc.1 ++ [s], acc.2 ++ [s]))
      (([] : List String), ([] : List String))).2

/-- One iteration of the aggregation loop of `AggregateRanges`: skip a nil
input, otherwise merge its nodes and append its metadata sources. -/
def aggStep (acc : List (String × Node) × List String) (ovr : Option ValidatorRanges) :
    List (String × Node) × List String :=
  match ovr with
  | none => acc
  | some vr =>
    let nodes := mergeNodes acc.1 vr.Nodes
    let sources :=
      match vr.Metadata with
      | some m => acc.2 ++ m.Sources
      | none => acc.2
    (nodes, sources)

/-- `AggregateRanges` from aggregator.go.  The Go input is
`[]*ValidatorRanges`; nil elements are skipped, hence `Option` elements. -/
def AggregateRanges (ranges : List (Option ValidatorRanges)) : ValidatorRanges :=
  if ranges.length = 0 then
    { Nodes := []
      Validators := { TotalCount := 0 }
      Groups := []
      Tags := []
      Metadata := some { NetworkName := "", Sources := [] } }
  else
    let acc := ranges.foldl aggStep (([] : List (String × Node)), ([] : List String))
    let gt := buildGroupsAndTags acc.1
    let result : ValidatorRanges :=
      { Nodes := acc.1
        Validators := { TotalCount := 0 }
        Groups := gt.1
        Tags := gt.2
        Metadata := some { NetworkName := "", Sources := deduplicateSlice acc.2 } }
    recalculateTotals result

/-! ### Liveness validator (inventory package, `ValidateClient`) -/

/-- The probeable fields of a `ClientInfo` record that `ValidateClient`
inspects (the full struct also carries name/type/version metadata). -/
structure ClientInfo where
  SSH : String
  BeaconAPI : String
  RPC : String
deriving DecidableEq, Repr

/-- The external network effects of the validator: `LookupHost` (list of
resolved addresses or an error message) and the HTTPS HEAD probe (status
code or a transport error message). -/
structure NetEnv where
  lookupHost : String → Except String (List String)
  headStatus : String → Except String Nat

/-- `extractHostname`: strip a `user@` part from SSH URLs (only when the
split at `@` yields exactly two parts). -/
def extractHostname (url : String) : String :=
  if goContains url "@" then
    match goSplit url '@' with
    | [_, host] => host
    | _ => url
  else url

/-- `validateHostname`: DNS-resolve the hostname; `none` is success, `some`
carries the error message. -/
def validateHostname (env : NetEnv) (urlType url : String) : Option String :=
  let hostname := extractHostname url
  match env.lookupHost hostname with
  | Except.error e =>
    some ("DNS lookup failed for " ++ urlType ++ " URL " ++ url ++
      " (hostname: " ++ hostname ++ "): " ++ e)
  | Except.ok addrs =>
    if addrs.length = 0 then
      some ("DNS lookup returned no addresses for " ++ urlType ++ " URL " ++ url ++
        " (hostname: " ++ hostname ++ ")")
    else none

/-- `doHTTPHead`: HEAD-request the URL; 2xx/3xx and exactly 401/404/405 are
accepted, any other status or a transport error is a failure. -/
def doHTTPHead (env : NetEnv) (url : String) : Option String :=
  match env.headStatus url with
  | Except.error e => some ("HTTP HEAD request failed: " ++ e)
  | Except.ok code =>
    if 200 ≤ code && code < 400 then none
    else if code = 401 || code = 404 || code = 405 then none
    else some ("unexpected HTTP status code: " ++ toString code)

/-- `validateHTTPEndpoint`: HTTPS-only HEAD probe of `https://<hostname>`. -/
def validateHTTPEndpoint (env : NetEnv) (urlType hostname : String) : Option String :=
  match doHTTPHead env ("https://" ++ hostname) with
  | some e =>
    some ("failed to validate " ++ urlType ++ " URL " ++ hostname ++ " via HTTPS: " ++ e)
  | none => none

/-- The final RPC check of `ValidateClient`. -/
def validateClientRPC (env : NetEnv) (client : ClientInfo) : Option String :=
  if client.RPC ≠ "" then
    match validateHTTPEndpoint env "rpc" client.RPC with
    | some e => some ("RPC URL validation failed: " ++ e)
    | none => none
  else none

/-- The BeaconAPI check of `ValidateClient`, followed by the RPC check. -/
def validateClientBeacon (env : NetEnv) (client : ClientInfo) : Option String :=
  if client.BeaconAPI ≠ "" then
    match validateHTTPEndpoint env "beacon-api" client.BeaconAPI with
    | some e => some ("BeaconAPI URL validation failed: " ++ e)
    | none => validateClientRPC env client
  else validateClientRPC env client

/-- `ValidateClient`: SSH via DNS only, BeaconAPI and RPC via HTTPS HEAD;
empty fields are skipped; the first failing populated field aborts with a
wrapped error naming the field. -/
def ValidateClient (env : NetEnv) (client : ClientInfo) : Option String :=
  if client.SSH ≠ "" then
    match validateHostname env "ssh" client.SSH with
    | some e => some ("SSH URL validation failed: " ++ e)
    | none => validateClientBeacon env client
  else validateClientBeacon env client

/-! ### Discovery orchestrator (`executeDiscovery`) -/

/-- A `Network` record as merged by the orchestrator (the full struct has
more fields; the merge treats it opaquely). -/
structure Network where
  name : String
  status : String
deriving DecidableEq, Repr

/-- The outcome one provider goroutine posts on the result channel:
its networks map (nil on failure), its name, and its error. -/
structure ProviderResult where
  networks : Option (List (String × Network))
  providerName : String
  err : Option String
deriving DecidableEq, Repr

/-- The discovery `Result` fields the collection loop populates (timestamps,
durations and repository metadata omitted). -/
structure DiscoveryResult where
  Networks : List (String × Network)
  Clients : List (String × ClientInfo)
  Providers : List String
deriving DecidableEq, Repr

/-- The collection loop of `executeDiscovery`: in completion order, a
successful provider's networks are written into the shared map
(`allNetworks[key] = network`, so a later contribution overwrites an
earlier one at the same key) and its name recorded; failed providers are
skipped. -/
def collectResults (results : List ProviderResult) :
    List (String × Network) × List String :=
  results.foldl
    (fun acc pr =>
      match pr.err, pr.networks with
      | none, some nets =>
        (nets.foldl (fun m e => setA m e.1 e.2) acc.1, acc.2 ++ [pr.providerName])
      | _, _ => acc)
    (([] : List (String × Network)), ([] : List String))

/-- `executeDiscovery` given the providers' posted results (in completion
order) and the client-discoverer outcome: zero providers yield an empty
result; adapter errors are only skipped; a client-discovery error degrades
to an empty client map; the cycle itself returns no error (the cancelled
path, which returns `ctx.Err()`, is outside this sequential model). -/
def executeDiscovery (providerResults : List ProviderResult)
    (clientResult : Except String (List (String × ClientInfo))) :
    DiscoveryResult × Option String :=
  if providerResults.length = 0 then
    ({ Networks := [], Clients := [], Providers := [] }, none)
  else
    let collected := collectResults providerResults
    let clients :=
      match clientResult with
      | Except.ok cs => cs
      | Except.error _ => []
    ({ Networks := collected.1, Clients := clients, Providers := collected.2 }, none)

/-! ### Basic lemmas about the map model and the string helpers -/

theorem lookupA_setA {α : Type} (m : List (String × α)) (k k' : String) (v : α) :
    lookupA (setA m k v) k' = if k = k' then some v else lookupA m k' := by
  induction m with
  | nil => simp [setA, lookupA]
  | cons e rest ih =>
    obtain ⟨k0, v0⟩ := e
    simp only [setA]
    by_cases h0 : k0 = k
    · subst h0
      by_cases h1 : k0 = k' <;> simp [lookupA, h1]
    · simp only [if_neg h0, lookupA, ih]
      by_cases h1 : k0 = k'
      · subst h1
        simp [if_neg (Ne.symm h0)]
      · simp [h1]

theorem lookupA_append {α : Type} (a b : List (String × α)) (k : String) :
    lookupA (a ++ b) k =
      match lookupA a k with
      | some v => some v
      | none => lookupA b k := by
  induction a with
  | nil => simp [lookupA]
  | cons e rest ih =>
    obtain ⟨k0, v0⟩ := e
    by_cases h : k0 = k <;> simp [lookupA, h, ih]

theorem mem_of_lookupA {α : Type} {m : List (String × α)} {k : String} {v : α}
    (h : lookupA m k = some v) : (k, v) ∈ m := by
  induction m with
  | nil => simp [lookupA] at h
  | cons e rest ih =>
    obtain ⟨k0, v0⟩ := e
    by_cases h0 : k0 = k
    · subst h0
      simp [lookupA] at h
      simp [h]
    · simp [lookupA, h0] at h
      exact List.mem_cons_of_mem _ (ih h)

theorem mem_setA {α : Type} {m : List (String × α)} {k : String} {v : α} {e : String × α}
    (h : e ∈ setA m k v) : e = (k, v) ∨ e ∈ m := by
  induction m with
  | nil =>
    simp [setA] at h
    exact Or.inl h
  | cons e0 rest ih =>
    obtain ⟨k0, v0⟩ := e0
    simp only [setA] at h
    by_cases h0 : k0 = k
    · simp only [if_pos h0] at h
      rcases List.mem_cons.mp h with h1 | h1
      · exact Or.inl h1
      · exact Or.inr (List.mem_cons_of_mem _ h1)
    · simp only [if_neg h0] at h
      rcases List.mem_cons.mp h with h1 | h1
      · exact Or.inr (h1 ▸ List.mem_cons_self _ _)
      · rcases ih h1 with h2 | h2
        · exact Or.inl h2
        · exact Or.inr (List.mem_cons_of_mem _ h2)

theorem map_fst_setA {α : Type} (m : List (String × α)) (k : String) (v : α) :
    (setA m k v).map Prod.fst =
      if k ∈ m.map Prod.fst then m.map Prod.fst else m.map Prod.fst ++ [k] := by
  induction m with
  | nil => simp [setA]
  | cons e rest ih =>
    obtain ⟨k0, v0⟩ := e
    simp only [setA]
    by_cases h0 : k0 = k
    · subst h0
      simp
    · simp only [if_neg h0, List.map_cons, ih]
      by_cases h1 : k ∈ rest.map Prod.fst
      · simp [h1, Ne.symm h0]
      · simp [h1, Ne.symm h0]

theorem nodupKeys_setA {α : Type} {m : List (String × α)} (k : String) (v : α)
    (h : (m.map Prod.fst).Nodup) : ((setA m k v).map Prod.fst).Nodup := by
  rw [map_fst_setA]
  by_cases h1 : k ∈ m.map Prod.fst
  · simpa [h1]
  · simpa [h1, List.nodup_append] using h

theorem lookupA_of_mem_nodup {α : Type} {m : List (String × α)} {k : String} {v : α}
    (hn : (m.map Prod.fst).Nodup) (h : (k, v) ∈ m) : lookupA m k = some v := by
  induction m with
  | nil => simp at h
  | cons e rest ih =>
    obtain ⟨k0, v0⟩ := e
    simp only [List.map_cons, List.nodup_cons] at hn
    rcases List.mem_cons.mp h with h1 | h1
    · injection h1 with hk hv
      subst hk
      subst hv
      simp [lookupA]
    · by_cases h0 : k0 = k
      · subst h0
        exact absurd (List.mem_map_of_mem Prod.fst h1) hn.1
      · simp only [lookupA, if_neg h0]
        exact ih hn.2 h1

theorem isPrefixOf_self_append (l r : List Char) : l.isPrefixOf (l ++ r) = true := by
  induction l with
  | nil => simp [List.isPrefixOf]
  | cons a as ih => simp [List.isPrefixOf, ih]

theorem goContainsAux_of_isPrefixOf {sub l : List Char} (h : sub.isPrefixOf l = true) :
    goContainsAux sub l = true := by
  cases l with
  | nil => simpa [goContainsAux] using h
  | cons c t => simp [goContainsAux, h]

theorem goContains_self_append (a b : String) : goContains (a ++ b) a = true := by
  have hdata : (a ++ b).data = a.data ++ b.data := rfl
  unfold goContains
  rw [hdata]
  exact goContainsAux_of_isPrefixOf (isPrefixOf_self_append _ _)

theorem containsStr_iff (slice : List String) (str : String) :
    containsStr slice str = true ↔ str ∈ slice := by
  simp only [containsStr, List.any_eq_true, decide_eq_true_eq]
  constructor
  · rintro ⟨x, hx, rfl⟩
    exact hx
  · intro h
    exact ⟨str, h, rfl⟩

/-! ### Liveness-validator lemmas -/

theorem goContains_label (a b c : String) : goContains (a ++ b ++ c) a = true := by
  rw [String.append_assoc]
  exact goContains_self_append a (b ++ c)

theorem doHTTPHead_ok (env : NetEnv) (url : String) (code : Nat)
    (h : env.headStatus url = Except.ok code) :
    (doHTTPHead env url = none ↔
      ((200 ≤ code ∧ code < 400) ∨ code = 401 ∨ code = 404 ∨ code = 405)) := by
  simp only [doHTTPHead, h]
  split_ifs with h1 h2
  · simp only [Bool.and_eq_true, decide_eq_true_eq] at h1
    simp [h1]
  · refine ⟨fun _ => ?_, fun _ => rfl⟩
    simp only [Bool.or_eq_true, decide_eq_true_eq] at h2
    tauto
  · simp only [Bool.and_eq_true, decide_eq_true_eq, not_and_or, not_le, not_lt] at h1
    simp only [Bool.or_eq_true, decide_eq_true_eq] at h2
    push_neg at h2
    constructor
    · intro hc
      exact absurd hc (by simp)
    · intro hc
      rcases hc with ⟨hlo, hhi⟩ | hc
      · rcases h1 with h1 | h1 <;> omega
      · rcases hc with hc | hc | hc <;> exact absurd hc (by tauto)

theorem validateClientRPC_none_iff (env : NetEnv) (client : ClientInfo) :
    validateClientRPC env client = none ↔
      (client.RPC = "" ∨ validateHTTPEndpoint env "rpc" client.RPC = none) := by
  unfold validateClientRPC
  by_cases h : client.RPC = ""
  · simp [h]
  · cases hc : validateHTTPEndpoint env "rpc" client.RPC <;> simp [h, hc]

theorem validateClientBeacon_none_iff (env : NetEnv) (client : ClientInfo) :
    validateClientBeacon env client = none ↔
      ((client.BeaconAPI = "" ∨ validateHTTPEndpoint env "beacon-api" client.BeaconAPI = none) ∧
       (client.RPC = "" ∨ validateHTTPEndpoint env "rpc" client.RPC = none)) := by
  unfold validateClientBeacon
  by_cases h : client.BeaconAPI = ""
  · simp [h, validateClientRPC_none_iff]
  · cases hc : validateHTTPEndpoint env "beacon-api" client.BeaconAPI <;>
      simp [h, hc, validateClientRPC_none_iff]

/-- C6: `ValidateClient` accepts a record iff every populated field passes
its check (empty fields are skipped and never fail), and the first failing
populated field yields an error whose text contains that field's
identifying label (`SSH`, `BeaconAPI`, `RPC`). -/
theorem C6_validate_client_all_or_nothing :
    ∀ (env : NetEnv) (client : ClientInfo),
      (ValidateClient env client = none ↔
        ((client.SSH = "" ∨ validateHostname env "ssh" client.SSH = none) ∧
         (client.BeaconAPI = "" ∨ validateHTTPEndpoint env "beacon-api" client.BeaconAPI = none) ∧
         (client.RPC = "" ∨ validateHTTPEndpoint env "rpc" client.RPC = none))) ∧
      (∀ e, client.SSH ≠ "" → validateHostname env "ssh" client.SSH = some e →
        ValidateClient env client = some ("SSH URL validation failed: " ++ e) ∧
        goContains ("SSH URL validation failed: " ++ e) "SSH" = true) ∧
      ((client.SSH = "" ∨ validateHostname env "ssh" client.SSH = none) →
        ∀ e, client.BeaconAPI ≠ "" →
          validateHTTPEndpoint env "beacon-api" client.BeaconAPI = some e →
          ValidateClient env client = some ("BeaconAPI URL validation failed: " ++ e) ∧
          goContains ("BeaconAPI URL validation failed: " ++ e) "BeaconAPI" = true) ∧
      ((client.SSH = "" ∨ validateHostname env "ssh" client.SSH = none) →
        (client.BeaconAPI = "" ∨ validateHTTPEndpoint env "beacon-api" client.BeaconAPI = none) →
        ∀ e, client.RPC ≠ "" →
          validateHTTPEndpoint env "rpc" client.RPC = some e →
          ValidateClient env client = some ("RPC URL validation failed: " ++ e) ∧
          goContains ("RPC URL validation failed: " ++ e) "RPC" = true) := by
  intro env client
  have hssh0 : ("SSH URL validation failed: " : String) = "SSH" ++ " URL validation failed: " := by
    rfl
  have hbeacon0 : ("BeaconAPI URL validation failed: " : String) =
      "BeaconAPI" ++ " URL validation failed: " := by
    rfl
  have hrpc0 : ("RPC URL validation failed: " : String) = "RPC" ++ " URL validation failed: " := by
    rfl
  have hssh : ∀ s : String, ("SSH URL validation failed: " ++ s) =
      ("SSH" ++ " URL validation failed: " ++ s) := by
    intro s
    rw [hssh0]
  have hbeacon : ∀ s : String, ("BeaconAPI URL validation failed: " ++ s) =
      ("BeaconAPI" ++ " URL validation failed: " ++ s) := by
    intro s
    rw [hbeacon0]
  have hrpc : ∀ s : String, ("RPC URL validation failed: " ++ s) =
      ("RPC" ++ " URL validation failed: " ++ s) := by
    intro s
    rw [hrpc0]
  refine ⟨?_, ?_, ?_, ?_⟩
  · unfold ValidateClient
    by_cases h : client.SSH = ""
    · simp [h, validateClientBeacon_none_iff]
    · cases hc : validateHostname env "ssh" client.SSH <;>
        simp [h, hc, validateClientBeacon_none_iff]
  · intro e hne hsome
    unfold ValidateClient
    rw [if_pos hne, hsome]
    exact ⟨rfl, by rw [hssh e]; exact goContains_label _ _ _⟩
  · intro hok e hne hsome
    have hv : ValidateClient env client = validateClientBeacon env client := by
      unfold ValidateClient
      rcases hok with h | h
      · rw [if_neg (by simp [h])]
      · by_cases h0 : client.SSH = ""
        · rw [if_neg (by simp [h0])]
        · rw [if_pos h0, h]
    rw [hv]
    unfold validateClientBeacon
    rw [if_pos hne, hsome]
    exact ⟨rfl, by rw [hbeacon e]; exact goContains_label _ _ _⟩
  · intro hok hbok e hne hsome
    have hv : ValidateClient env client = validateClientBeacon env client := by
      unfold ValidateClient
      rcases hok with h | h
      · rw [if_neg (by simp [h])]
      · by_cases h0 : client.SSH = ""
        · rw [if_neg (by simp [h0])]
        · rw [if_pos h0, h]
    have hv2 : validateClientBeacon env client = validateClientRPC env client := by
      unfold validateClientBeacon
      rcases hbok with h | h
      · rw [if_neg (by simp [h])]
      · by_cases h0 : client.BeaconAPI = ""
        · rw [if_neg (by simp [h0])]
        · rw [if_pos h0, h]
    rw [hv, hv2]
    unfold validateClientRPC
    rw [if_pos hne, hsome]
    exact ⟨rfl, by rw [hrpc e]; exact goContains_label _ _ _⟩

/-- Oracle used to witness C6: `sshhost` resolves, every HTTPS probe hits a
transport error. -/
def envW : NetEnv :=
  { lookupHost := fun h => if h = "sshhost" then Except.ok ["1.2.3.4"] else Except.error "no such host"
    headStatus := fun _ => Except.error "dial fail" }

/-- Witness for C6 at the spec's own example: resolvable SSH plus
unresolvable BeaconAPI fails with a `BeaconAPI`-labelled error, and the same
record with the BeaconAPI field empty passes. -/
theorem C6_witness :
    (ValidateClient envW { SSH := "devops@sshhost", BeaconAPI := "apihost", RPC := "" } =
      some ("BeaconAPI URL validation failed: " ++
        "failed to validate beacon-api URL apihost via HTTPS: HTTP HEAD request failed: dial fail") ∧
      goContains ("BeaconAPI URL validation failed: " ++
        "failed to validate beacon-api URL apihost via HTTPS: HTTP HEAD request failed: dial fail")
        "BeaconAPI" = true) ∧
    ValidateClient envW { SSH := "devops@sshhost", BeaconAPI := "", RPC := "" } = none := by
  constructor
  · exact (C6_validate_client_all_or_nothing envW
      { SSH := "devops@sshhost", BeaconAPI := "apihost", RPC := "" }).2.2.1
      (Or.inr (by decide)) _ (by decide) (by decide)
  · exact (C6_validate_client_all_or_nothing envW
      { SSH := "devops@sshhost", BeaconAPI := "", RPC := "" }).1.mpr
      ⟨Or.inr (by decide), Or.inl (by decide), Or.inl (by decide)⟩

/-- C7: an HTTPS HEAD probe passes iff the response status is in `[200,400)`
or is exactly 401, 404 or 405; any other status, or a transport error, makes
it fail; in particular a 404 response passes and a 500 response fails. -/
theorem C7_http_head_status_policy :
    (∀ env url, doHTTPHead env url = none ↔
      ∃ code, env.headStatus url = Except.ok code ∧
        ((200 ≤ code ∧ code < 400) ∨ code = 401 ∨ code = 404 ∨ code = 405)) ∧
    (∀ url, doHTTPHead ⟨fun _ => Except.error "", fun _ => Except.ok 404⟩ url = none) ∧
    (∀ url, doHTTPHead ⟨fun _ => Except.error "", fun _ => Except.ok 500⟩ url ≠ none) := by
  refine ⟨fun env url => ?_, fun url => by rfl, fun url => by simp [doHTTPHead]⟩
  cases h : env.headStatus url with
  | error e => simp [doHTTPHead, h]
  | ok code =>
    rw [doHTTPHead_ok env url code h]
    constructor
    · intro h1
      exact ⟨code, rfl, h1⟩
    · rintro ⟨c, hc, hd⟩
      injection hc with hcc
      subst hcc
      exact hd

/-! ### Orchestrator lemmas: C2 (merge overwrites) and C8 (failure isolation) -/

theorem lookupA_foldl_setA {α : Type} (entries : List (String × α)) (m : List (String × α))
    (k : String) :
    lookupA (entries.foldl (fun m e => setA m e.1 e.2) m) k =
      entries.foldl (fun a e => if e.1 = k then some e.2 else a) (lookupA m k) := by
  induction entries generalizing m with
  | nil => rfl
  | cons e es ih =>
    simp only [List.foldl_cons]
    rw [ih, lookupA_setA]

/-- The value the merged network map holds at key `k`: the entry of the last
successfully merged contribution containing `k` (within one contribution,
its last entry for `k`). -/
def lastContribution (prs : List ProviderResult) (k : String) : Option Network :=
  prs.foldl
    (fun acc pr =>
      match pr.err, pr.networks with
      | none, some nets => nets.foldl (fun a e => if e.1 = k then some e.2 else a) acc
      | _, _ => acc)
    none

theorem collectResults_fold_lookup (prs : List ProviderResult)
    (m : List (String × Network)) (names : List String) (k : String) :
    lookupA
        ((prs.foldl
            (fun acc pr =>
              match pr.err, pr.networks with
              | none, some nets =>
                (nets.foldl (fun m e => setA m e.1 e.2) acc.1, acc.2 ++ [pr.providerName])
              | _, _ => acc)
            (m, names)).1)
        k =
      prs.foldl
        (fun acc pr =>
          match pr.err, pr.networks with
          | none, some nets => nets.foldl (fun a e => if e.1 = k then some e.2 else a) acc
          | _, _ => acc)
        (lookupA m k) := by
  induction prs generalizing m names with
  | nil => rfl
  | cons pr rest ih =>
    simp only [List.foldl_cons]
    cases herr : pr.err with
    | some e => simpa [herr] using ih m names
    | none =>
      cases hnet : pr.networks with
      | none => simpa [herr, hnet] using ih m names
      | some nets =>
        simp only [herr, hnet]
        rw [ih, lookupA_foldl_setA]

theorem collectResults_lookup (prs : List ProviderResult) (k : String) :
    lookupA (collectResults prs).1 k = lastContribution prs k := by
  unfold collectResults lastContribution
  exact collectResults_fold_lookup prs [] [] k

/-- C2 counterexample: two successful contributions both carrying key
`"net"`; the merged value is the second (later) contribution's record, so a
key already present **is** overwritten. -/
theorem C2_counterexample_overwrite :
    lookupA
        (executeDiscovery
          [{ networks := some [("net", { name := "a", status := "active" })],
             providerName := "p1", err := none },
           { networks := some [("net", { name := "b", status := "inactive" })],
             providerName := "p2", err := none }]
          (Except.error "x")).1.Networks
        "net" =
      some { name := "b", status := "inactive" } ∧
    some ({ name := "b", status := "inactive" } : Network) ≠
      some ({ name := "a", status := "active" } : Network) := by
  exact ⟨by decide, by decide⟩

/-- C2 as amended: the orchestrator's merge is last-merged-wins — for every
sequence of contributions, the merged mapping's value at a key is the value
of the **last** successfully merged contribution containing that key, a
later contribution overwriting an earlier one. -/
theorem C2_merge_last_wins (prs : List ProviderResult)
    (clientResult : Except String (List (String × ClientInfo))) (k : String) :
    lookupA (executeDiscovery prs clientResult).1.Networks k = lastContribution prs k := by
  cases prs with
  | nil => rfl
  | cons pr rest =>
    have hne : (pr :: rest).length ≠ 0 := by simp
    show lookupA
        (if (pr :: rest).length = 0 then _ else _ : DiscoveryResult × Option String).1.Networks k = _
    rw [if_neg hne]
    exact collectResults_lookup (pr :: rest) k

theorem foldl_opt_mem {α : Type} (entries : List (String × α)) (init : Option α) (k : String)
    (v : α) (h : entries.foldl (fun a e => if e.1 = k then some e.2 else a) init = some v) :
    (k, v) ∈ entries ∨ init = some v := by
  induction entries generalizing init with
  | nil => exact Or.inr h
  | cons e es ih =>
    simp only [List.foldl_cons] at h
    rcases ih _ h with h1 | h1
    · exact Or.inl (List.mem_cons_of_mem _ h1)
    · by_cases he : e.1 = k
      · rw [if_pos he] at h1
        injection h1 with hv
        refine Or.inl (List.mem_cons.mpr (Or.inl ?_))
        rw [← he, ← hv]
      · rw [if_neg he] at h1
        exact Or.inr h1

theorem lastContribution_provenance (prs : List ProviderResult) (k : String) (v : Network) :
    ∀ init,
      prs.foldl
          (fun acc pr =>
            match pr.err, pr.networks with
            | none, some nets => nets.foldl (fun a e => if e.1 = k then some e.2 else a) acc
            | _, _ => acc)
          init = some v →
      (∃ pr, pr ∈ prs ∧ pr.err = none ∧ ∃ nets, pr.networks = some nets ∧ (k, v) ∈ nets) ∨
        init = some v := by
  induction prs with
  | nil => exact fun init h => Or.inr h
  | cons pr rest ih =>
    intro init h
    simp only [List.foldl_cons] at h
    cases herr : pr.err with
    | some e =>
      rw [herr] at h
      rcases ih _ h with ⟨pr', h1, h2⟩ | h1
      · exact Or.inl ⟨pr', List.mem_cons_of_mem _ h1, h2⟩
      · exact Or.inr h1
    | none =>
      cases hnet : pr.networks with
      | none =>
        rw [herr, hnet] at h
        rcases ih _ h with ⟨pr', h1, h2⟩ | h1
        · exact Or.inl ⟨pr', List.mem_cons_of_mem _ h1, h2⟩
        · exact Or.inr h1
      | some nets =>
        rw [herr, hnet] at h
        rcases ih _ h with ⟨pr', h1, h2⟩ | h1
        · exact Or.inl ⟨pr', List.mem_cons_of_mem _ h1, h2⟩
        · rcases foldl_opt_mem nets init k v h1 with h2 | h2
          · exact Or.inl ⟨pr, List.mem_cons_self _ _, herr, nets, hnet, h2⟩
          · exact Or.inr h2

/-- Sample records for C8's concrete instance. -/
def failingProvider : ProviderResult :=
  { networks := none, providerName := "bad", err := some "boom" }

/-- The successful provider of C8's concrete instance, contributing two
records. -/
def succeedingProvider : ProviderResult :=
  { networks := some [("m1", { name := "a", status := "active" }),
                      ("m2", { name := "b", status := "inactive" })],
    providerName := "good", err := none }

/-- C8: an adapter returning an error is excluded from the merge (every
merged entry originates in a successful adapter's contribution), the cycle
still returns and its error component is `nil`; concretely, one failing and
one successful adapter with 2 records yield exactly those 2 records. -/
theorem C8_partial_source_resilience :
    (∀ prs clientResult, (executeDiscovery prs clientResult).2 = none) ∧
    (∀ prs clientResult k v,
      lookupA (executeDiscovery prs clientResult).1.Networks k = some v →
      ∃ pr, pr ∈ prs ∧ pr.err = none ∧ ∃ nets, pr.networks = some nets ∧ (k, v) ∈ nets) ∧
    ((executeDiscovery [failingProvider, succeedingProvider] (Except.ok [])).1.Networks =
        [("m1", { name := "a", status := "active" }),
         ("m2", { name := "b", status := "inactive" })] ∧
      (executeDiscovery [failingProvider, succeedingProvider] (Except.ok [])).2 = none) := by
  refine ⟨?_, ?_, by decide, by decide⟩
  · intro prs clientResult
    cases prs with
    | nil => rfl
    | cons pr rest =>
      show (if (pr :: rest).length = 0 then _ else _ : DiscoveryResult × Option String).2 = none
      rw [if_neg (by simp : (pr :: rest).length ≠ 0)]
  · intro prs clientResult k v h
    cases prs with
    | nil => simp [executeDiscovery, lookupA] at h
    | cons pr rest =>
      rw [show (executeDiscovery (pr :: rest) clientResult).1.Networks =
          (collectResults (pr :: rest)).1 from by
        show (if (pr :: rest).length = 0 then _ else _ : DiscoveryResult × Option String).1.Networks = _
        rw [if_neg (by simp : (pr :: rest).length ≠ 0)]] at h
      rw [collectResults_lookup] at h
      unfold lastContribution at h
      rcases lastContribution_provenance (pr :: rest) k v none h with h1 | h1
      · exact h1
      · exact absurd h1 (by simp)

/-- Witness for C8: the merged entry `("m1", …)` of the concrete two-adapter
cycle is traced back to the succeeding provider. -/
theorem C8_witness :
    ∃ pr, pr ∈ [failingProvider, succeedingProvider] ∧ pr.err = none ∧
      ∃ nets, pr.networks = some nets ∧
        (("m1", ({ name := "a", status := "active" } : Network))) ∈ nets :=
  C8_partial_source_resilience.2.1 [failingProvider, succeedingProvider] (Except.ok [])
    "m1" { name := "a", status := "active" } (by decide)

/-- Witness for C7 at concrete status codes: 404 passes, 500 fails. -/
theorem C7_witness :
    doHTTPHead ⟨fun _ => Except.error "", fun _ => Except.ok 404⟩ "https://host" = none ∧
    doHTTPHead ⟨fun _ => Except.error "", fun _ => Except.ok 500⟩ "https://host" ≠ none :=
  ⟨C7_http_head_status_policy.2.1 "https://host",
   C7_http_head_status_policy.2.2 "https://host"⟩

/-! ### C3 — totals recomputed from surviving nodes -/

/-- The spec's per-range-list total: Σ (end − start) over the non-nil
ranges. -/
def specRangesTotal (rs : List (Option ValidatorRange)) : Int :=
  (rs.map
    (fun r =>
      match r with
      | some vr => vr.End - vr.Start
      | none => 0)).sum

/-- The spec's recomputed summary total over a node mapping:
Σ over nodes Σ over their ranges (end − start). -/
def specTotal (nodes : List (String × Node)) : Int :=
  (nodes.map (fun e => specRangesTotal e.2.ValidatorRanges)).sum

theorem foldl_rangeTotalStep (rs : List (Option ValidatorRange)) (t : Int) :
    rs.foldl rangeTotalStep t = t + specRangesTotal rs := by
  induction rs generalizing t with
  | nil => simp [specRangesTotal]
  | cons r rest ih =>
    simp only [List.foldl_cons, ih, specRangesTotal, List.map_cons, List.sum_cons]
    cases r with
    | none => simp [rangeTotalStep, specRangesTotal]
    | some vr =>
      simp only [rangeTotalStep, specRangesTotal]
      ring

theorem foldl_nodesTotal (nodes : List (String × Node)) (t : Int) :
    nodes.foldl (fun total entry => entry.2.ValidatorRanges.foldl rangeTotalStep total) t =
      t + specTotal nodes := by
  induction nodes generalizing t with
  | nil => simp [specTotal]
  | cons e rest ih =>
    simp only [List.foldl_cons]
    rw [foldl_rangeTotalStep, ih]
    simp only [specTotal, List.map_cons, List.sum_cons]
    ring

theorem calculateTotalValidators_eq_spec (nodes : List (String × Node)) :
    calculateTotalValidators nodes = specTotal nodes := by
  unfold calculateTotalValidators
  rw [foldl_nodesTotal]
  ring

theorem recalculateTotals_total (vr : ValidatorRanges) :
    (recalculateTotals vr).Validators.TotalCount = specTotal (recalculateTotals vr).Nodes := by
  show vr.Nodes.foldl (fun total entry => entry.2.ValidatorRanges.foldl rangeTotalStep total) 0 =
    specTotal vr.Nodes
  rw [foldl_nodesTotal]
  ring

/-- First disjoint-input RangeSet for C3's concrete instance; its stored
summary (999) is deliberately wrong to show totals are not carried over. -/
def disjointA : ValidatorRanges :=
  { Nodes := [("a", { Groups := ["g"], Tags := [], Attributes := [],
                      ValidatorRanges := [some ⟨0, 8⟩], Source := "A" })]
    Validators := { TotalCount := 999 }
    Groups := [("g", ["a"])]
    Tags := []
    Metadata := some { NetworkName := "", Sources := [] } }

/-- Second disjoint-input RangeSet for C3's concrete instance, again with a
bogus stored summary. -/
def disjointB : ValidatorRanges :=
  { Nodes := [("b", { Groups := ["g"], Tags := [], Attributes := [],
                      ValidatorRanges := [some ⟨100, 108⟩], Source := "B" })]
    Validators := { TotalCount := 999 }
    Groups := [("g", ["b"])]
    Tags := []
    Metadata := some { NetworkName := "", Sources := [] } }

/-- C3: after every `ParseInventory` and every `AggregateRanges`, the
summary total equals Σ over the surviving nodes of Σ (end − start) over
their ranges — recomputed, never carried over from the inputs' summaries
(the concrete disjoint instance uses inputs whose stored summaries are a
bogus 999 and still totals 16 over 2 nodes). -/
theorem C3_totals_recomputed :
    (∀ sections sourceURL sourceName rangeOffset,
      (ParseInventory sections sourceURL sourceName rangeOffset).Validators.TotalCount =
        specTotal (ParseInventory sections sourceURL sourceName rangeOffset).Nodes) ∧
    (∀ ranges, (AggregateRanges ranges).Validators.TotalCount =
        specTotal (AggregateRanges ranges).Nodes) ∧
    ((AggregateRanges [some disjointA, some disjointB]).Nodes.length = 2 ∧
      (AggregateRanges [some disjointA, some disjointB]).Validators.TotalCount = 16) := by
  refine ⟨fun sections u sn off => ?_, fun ranges => ?_, by decide, by decide⟩
  · exact calculateTotalValidators_eq_spec _
  · cases ranges with
    | nil => rfl
    | cons r rest => exact recalculateTotals_total _

/-! ### C1 — aggregator duplicate discard (first-seen wins) -/

theorem deepCopyNode_eq (n : Node) : deepCopyNode n = n := rfl

theorem lookupA_mergeNodes (source : List (String × Node)) (target : List (String × Node))
    (k : String) :
    lookupA (mergeNodes target source) k =
      match lookupA target k with
      | some v => some v
      | none => lookupA source k := by
  induction source generalizing target with
  | nil =>
    cases h : lookupA target k <;> simp [mergeNodes, lookupA, h]
  | cons e rest ih =>
    obtain ⟨k0, v0⟩ := e
    show lookupA (mergeNodes (mergeNodeStep target (k0, v0)) rest) k = _
    rw [ih]
    unfold mergeNodeStep
    cases h0 : lookupA target k0 with
    | some w =>
      simp only [h0]
      cases h1 : lookupA target k with
      | some v => simp [h1]
      | none =>
        simp only [h1, lookupA]
        by_cases hk : k0 = k
        · subst hk
          rw [h0] at h1
          exact absurd h1 (by simp)
        · simp [hk]
    | none =>
      simp only [h0]
      rw [lookupA_append]
      cases h1 : lookupA target k with
      | some v => simp [h1]
      | none =>
        simp only [h1, lookupA]
        by_cases hk : k0 = k
        · subst hk
          simp [deepCopyNode_eq]
        · simp [hk]

/-- One step of the first-seen scan over the ordered inputs. -/
def firstSeenStep (name : String) (acc : Option Node) (ovr : Option ValidatorRanges) :
    Option Node :=
  match acc with
  | some _ => acc
  | none =>
    match ovr with
    | none => none
    | some vr => lookupA vr.Nodes name

/-- The first-seen copy of a node name across the ordered input list: the
entry of the earliest non-nil input whose node map binds the name. -/
def firstSeen (ranges : List (Option ValidatorRanges)) (name : String) : Option Node :=
  ranges.foldl (firstSeenStep name) none

theorem firstSeen_fold_some (ranges : List (Option ValidatorRanges)) (n : Node)
    (name : String) : ranges.foldl (firstSeenStep name) (some n) = some n := by
  induction ranges with
  | nil => rfl
  | cons r rest ih =>
    show rest.foldl (firstSeenStep name) (firstSeenStep name (some n) r) = some n
    rw [show firstSeenStep name (some n) r = some n from rfl]
    exact ih

theorem aggFold_lookup (ranges : List (Option ValidatorRanges))
    (acc : List (String × Node) × List String) (k : String) :
    lookupA ((ranges.foldl aggStep acc).1) k =
      match lookupA acc.1 k with
      | some v => some v
      | none => firstSeen ranges k := by
  induction ranges generalizing acc with
  | nil =>
    cases h : lookupA acc.1 k <;> simp [firstSeen, lookupA, h]
  | cons ovr rest ih =>
    simp only [List.foldl_cons]
    rw [ih]
    cases ovr with
    | none =>
      show (match lookupA acc.1 k with
        | some v => some v
        | none => firstSeen rest k) = _
      cases h : lookupA acc.1 k with
      | some v => simp [h]
      | none =>
        simp only [h]
        show firstSeen rest k = (none :: rest : List (Option ValidatorRanges)).foldl
          (firstSeenStep k) none
        rfl
    | some vr =>
      show (match lookupA (mergeNodes acc.1 vr.Nodes) k with
        | some v => some v
        | none => firstSeen rest k) = _
      rw [lookupA_mergeNodes]
      cases h : lookupA acc.1 k with
      | some v => simp [h]
      | none =>
        simp only [h]
        cases h1 : lookupA vr.Nodes k with
        | some n =>
          simp only [h1]
          show some n = (rest.foldl (firstSeenStep k) (firstSeenStep k none (some vr)))
          rw [show firstSeenStep k none (some vr) = lookupA vr.Nodes k from rfl, h1,
            firstSeen_fold_some]
        | none =>
          simp only [h1]
          show firstSeen rest k =
            rest.foldl (firstSeenStep k) (firstSeenStep k none (some vr))
          rw [show firstSeenStep k none (some vr) = lookupA vr.Nodes k from rfl, h1]
          rfl

/-- Node `"x"` of the first duplicate-instance input (groups `["g1"]`,
range `[0,8)`). -/
def dupNodeA : Node :=
  { Groups := ["g1"], Tags := [], Attributes := [],
    ValidatorRanges := [some ⟨0, 8⟩], Source := "A" }

/-- RangeSet A of C1's concrete duplicate instance. -/
def dupRangeSetA : ValidatorRanges :=
  { Nodes := [("x", dupNodeA)]
    Validators := { TotalCount := 8 }
    Groups := [("g1", ["x"])]
    Tags := []
    Metadata := some { NetworkName := "", Sources := ["urlA"] } }

/-- RangeSet B of C1's concrete duplicate instance: a different-content node
also named `"x"` (groups `["g1","g2"]`, range `[8,16)`). -/
def dupRangeSetB : ValidatorRanges :=
  { Nodes := [("x", { Groups := ["g1", "g2"], Tags := [], Attributes := [],
                      ValidatorRanges := [some ⟨8, 16⟩], Source := "B" })]
    Validators := { TotalCount := 8 }
    Groups := [("g1", ["x"]), ("g2", ["x"])]
    Tags := []
    Metadata := some { NetworkName := "", Sources := ["urlB"] } }

/-- C1: the aggregator's node map always holds the unchanged first-seen copy
of every name (a later duplicate is discarded entirely); concretely,
aggregating A then B with the duplicate `"x"` keeps exactly A's node, leaves
`"g2"` out of the rebuilt group index, and totals 8. -/
theorem C1_duplicate_discard :
    (∀ ranges name, lookupA (AggregateRanges ranges).Nodes name = firstSeen ranges name) ∧
    ((AggregateRanges [some dupRangeSetA, some dupRangeSetB]).Nodes = [("x", dupNodeA)] ∧
      lookupA (AggregateRanges [some dupRangeSetA, some dupRangeSetB]).Groups "g2" = none ∧
      lookupA (AggregateRanges [some dupRangeSetA, some dupRangeSetB]).Groups "g1" =
        some ["x"] ∧
      (AggregateRanges [some dupRangeSetA, some dupRangeSetB]).Validators.TotalCount = 8) := by
  refine ⟨fun ranges name => ?_, by decide, by decide, by decide, by decide⟩
  cases ranges with
  | nil => rfl
  | cons r rest =>
    show lookupA (((r :: rest).foldl aggStep ([], [])).1) name = _
    rw [aggFold_lookup]
    rfl

/-! ### C4 — index soundness and the empty-range filter -/

/-- Every node name in every entry of an index is among `keys`. -/
def indexSound (idx : List (String × List String)) (keys : List String) : Prop :=
  ∀ e ∈ idx, ∀ nm ∈ e.2, nm ∈ keys

theorem indexSound_addToIndex {idx : List (String × List String)} {keys : List String}
    (hs : indexSound idx keys) {nmNew : String} (hn : nmNew ∈ keys) (key : String) :
    indexSound (addToIndex idx key nmNew) keys := by
  intro e he nm hnm
  unfold addToIndex at he
  cases h0 : lookupA idx key with
  | some lst =>
    rw [h0] at he
    rcases mem_setA he with h1 | h1
    · rw [h1] at hnm
      rcases List.mem_append.mp hnm with h2 | h2
      · exact hs (key, lst) (mem_of_lookupA h0) nm h2
      · rw [List.mem_singleton.mp h2]
        exact hn
    · exact hs e h1 nm hnm
  | none =>
    rw [h0] at he
    rcases mem_setA he with h1 | h1
    · rw [h1] at hnm
      rw [List.mem_singleton.mp hnm]
      exact hn
    · exact hs e h1 nm hnm

theorem indexSound_foldl_addToIndex {keys : List String} {nmNew : String} (hn : nmNew ∈ keys)
    (names : List String) :
    ∀ idx, indexSound idx keys →
      indexSound (names.foldl (fun g grp => addToIndex g grp nmNew) idx) keys := by
  induction names with
  | nil => exact fun idx h => h
  | cons nmx rest ih =>
    intro idx h
    exact ih _ (indexSound_addToIndex h hn nmx)

theorem buildFold_sound (keys : List String) :
    ∀ nodes : List (String × Node), (∀ e ∈ nodes, e.1 ∈ keys) →
      ∀ gt : List (String × List String) × List (String × List String),
        indexSound gt.1 keys → indexSound gt.2 keys →
        indexSound (nodes.foldl buildStep gt).1 keys ∧
          indexSound (nodes.foldl buildStep gt).2 keys := by
  intro nodes
  induction nodes with
  | nil => exact fun _ gt hg ht => ⟨hg, ht⟩
  | cons e rest ih =>
    intro hmem gt hg ht
    simp only [List.foldl_cons]
    refine ih (fun e' h' => hmem e' (List.mem_cons_of_mem _ h')) (buildStep gt e) ?_ ?_
    · exact indexSound_foldl_addToIndex (hmem e (List.mem_cons_self _ _)) e.2.Groups gt.1 hg
    · exact indexSound_foldl_addToIndex (hmem e (List.mem_cons_self _ _)) e.2.Tags gt.2 ht

theorem indexSound_nil (keys : List String) : indexSound [] keys := by
  intro e he
  exact absurd he (List.not_mem_nil e)

theorem buildGroupsAndTags_sound (nodes : List (String × Node)) :
    indexSound (buildGroupsAndTags nodes).1 (nodes.map Prod.fst) ∧
      indexSound (buildGroupsAndTags nodes).2 (nodes.map Prod.fst) := by
  unfold buildGroupsAndTags
  exact buildFold_sound _ nodes (fun e h => List.mem_map_of_mem Prod.fst h) ([], [])
    (indexSound_nil _) (indexSound_nil _)

/-- C4: in every `ParseInventory` and every `AggregateRanges` result, every
node identifier appearing in an entry of the group or tag index is a key of
the node mapping; and `ParseInventory` removes every node with an empty
range list before building the indices, so such a node is in neither the
node map nor (having no key) the indices. -/
theorem C4_index_soundness :
    (∀ sections sourceURL sourceName rangeOffset,
      (∀ e ∈ (ParseInventory sections sourceURL sourceName rangeOffset).Groups,
        ∀ nm ∈ e.2,
          nm ∈ (ParseInventory sections sourceURL sourceName rangeOffset).Nodes.map Prod.fst) ∧
      (∀ e ∈ (ParseInventory sections sourceURL sourceName rangeOffset).Tags,
        ∀ nm ∈ e.2,
          nm ∈ (ParseInventory sections sourceURL sourceName rangeOffset).Nodes.map Prod.fst) ∧
      (∀ name node,
        lookupA (ParseInventory sections sourceURL sourceName rangeOffset).Nodes name =
          some node → node.ValidatorRanges ≠ [])) ∧
    (∀ ranges,
      (∀ e ∈ (AggregateRanges ranges).Groups, ∀ nm ∈ e.2,
        nm ∈ (AggregateRanges ranges).Nodes.map Prod.fst) ∧
      (∀ e ∈ (AggregateRanges ranges).Tags, ∀ nm ∈ e.2,
        nm ∈ (AggregateRanges ranges).Nodes.map Prod.fst)) := by
  constructor
  · intro sections sourceURL sourceName rangeOffset
    refine ⟨(buildGroupsAndTags_sound _).1, (buildGroupsAndTags_sound _).2, ?_⟩
    intro name node h
    have hmem := mem_of_lookupA h
    have hp := (List.mem_filter.mp hmem).2
    have hlen : node.ValidatorRanges.length > 0 := by
      simpa using hp
    exact List.length_pos.mp hlen
  · intro ranges
    cases ranges with
    | nil => exact ⟨indexSound_nil _, indexSound_nil _⟩
    | cons r rest =>
      exact ⟨(buildGroupsAndTags_sound _).1, (buildGroupsAndTags_sound _).2⟩

/-- Witness for C4: in the one-section concrete inventory, the group-index
entry for `"g"` lists `"n1"`, which is indeed a key of the node map. -/
theorem C4_witness :
    "n1" ∈ (ParseInventory [⟨"g", [⟨"n1", "validator_start=0 validator_end=8"⟩]⟩]
        "u" "s" 0).Nodes.map Prod.fst :=
  (C4_index_soundness.1 [⟨"g", [⟨"n1", "validator_start=0 validator_end=8"⟩]⟩] "u" "s" 0).1
    ("g", ["n1"]) (by decide) "n1" (by decide)

/-! ### C5 — characterisation of `extractValidatorRange` -/

/-- The integer carried by a `validator_start=` field: the field must have
the prefix, split on `=` into exactly two parts, and parse. -/
def parseStartTok (attr : String) : Option Int :=
  if goHasPrefix attr "validator_start=" then
    match goSplit attr '=' with
    | [_, p1] => goAtoi p1
    | _ => none
  else none

/-- The integer carried by a `validator_end=` field (the scanner tests the
start prefix first, mirroring the `else if`). -/
def parseEndTok (attr : String) : Option Int :=
  if goHasPrefix attr "validator_start=" then none
  else if goHasPrefix attr "validator_end=" then
    match goSplit attr '=' with
    | [_, p1] => goAtoi p1
    | _ => none
  else none

/-- The last parseable `validator_start=` value among the whitespace fields
of the value (the scanner overwrites on every parseable occurrence). -/
def lastStart (value : String) : Option Int :=
  (goFields value).foldl
    (fun acc attr =>
      match parseStartTok attr with
      | some v => some v
      | none => acc)
    none

/-- The last parseable `validator_end=` value among the whitespace fields. -/
def lastEnd (value : String) : Option Int :=
  (goFields value).foldl
    (fun acc attr =>
      match parseEndTok attr with
      | some v => some v
      | none => acc)
    none

/-- The start component of the scanner state as an option. -/
def optStart (st : RangeScan) : Option Int :=
  if st.hasStart then some st.start else none

/-- The end component of the scanner state as an option. -/
def optEnd (st : RangeScan) : Option Int :=
  if st.hasEnd then some st.stop else none

theorem scanRangeField_optStart (off : Int) (st : RangeScan) (attr : String) :
    optStart (scanRangeField off st attr) =
      match parseStartTok attr with
      | some v => some (v + off)
      | none => optStart st := by
  unfold scanRangeField parseStartTok
  cases hpre : goHasPrefix attr "validator_start=" with
  | true =>
    simp only [hpre, if_true]
    rcases hsp : goSplit attr '=' with _ | ⟨p0, _ | ⟨p1, _ | ⟨p2, rest⟩⟩⟩ <;>
        (simp only [hsp]; try rfl)
    cases ha : goAtoi p1 <;> simp [ha, optStart]
  | false =>
    simp only [hpre, Bool.false_eq_true, if_false]
    cases hpre2 : goHasPrefix attr "validator_end=" with
    | true =>
      simp only [hpre2, if_true]
      rcases hsp : goSplit attr '=' with _ | ⟨p0, _ | ⟨p1, _ | ⟨p2, rest⟩⟩⟩ <;>
          (simp only [hsp]; try rfl)
      cases ha : goAtoi p1 <;> simp [ha, optStart]
    | false =>
      simp only [hpre2, Bool.false_eq_true, if_false]

theorem scanRangeField_optEnd (off : Int) (st : RangeScan) (attr : String) :
    optEnd (scanRangeField off st attr) =
      match parseEndTok attr with
      | some v => some (v + off)
      | none => optEnd st := by
  unfold scanRangeField parseEndTok
  cases hpre : goHasPrefix attr "validator_start=" with
  | true =>
    simp only [hpre, if_true]
    rcases hsp : goSplit attr '=' with _ | ⟨p0, _ | ⟨p1, _ | ⟨p2, rest⟩⟩⟩ <;>
        (simp only [hsp]; try rfl)
    cases ha : goAtoi p1 <;> simp [ha, optEnd]
  | false =>
    simp only [hpre, Bool.false_eq_true, if_false]
    cases hpre2 : goHasPrefix attr "validator_end=" with
    | true =>
      simp only [hpre2, if_true]
      rcases hsp : goSplit attr '=' with _ | ⟨p0, _ | ⟨p1, _ | ⟨p2, rest⟩⟩⟩ <;>
          (simp only [hsp]; try rfl)
      cases ha : goAtoi p1 <;> simp [ha, optEnd]
    | false =>
      simp only [hpre2, Bool.false_eq_true, if_false]

theorem foldl_scan_optStart (off : Int) (fields : List String) :
    ∀ st, optStart (fields.foldl (scanRangeField off) st) =
      fields.foldl
        (fun acc attr =>
          match parseStartTok attr with
          | some v => some (v + off)
          | none => acc)
        (optStart st) := by
  induction fields with
  | nil => intro st; rfl
  | cons a rest ih =>
    intro st
    simp only [List.foldl_cons]
    rw [ih, scanRangeField_optStart]

theorem foldl_scan_optEnd (off : Int) (fields : List String) :
    ∀ st, optEnd (fields.foldl (scanRangeField off) st) =
      fields.foldl
        (fun acc attr =>
          match parseEndTok attr with
          | some v => some (v + off)
          | none => acc)
        (optEnd st) := by
  induction fields with
  | nil => intro st; rfl
  | cons a rest ih =>
    intro st
    simp only [List.foldl_cons]
    rw [ih, scanRangeField_optEnd]

theorem foldl_offset_map (off : Int) (p : String → Option Int) (fields : List String) :
    ∀ acc : Option Int,
      fields.foldl
          (fun acc attr =>
            match p attr with
            | some v => some (v + off)
            | none => acc)
          (acc.map (· + off)) =
        (fields.foldl
          (fun acc attr =>
            match p attr with
            | some v => some v
            | none => acc)
          acc).map (· + off) := by
  induction fields with
  | nil => intro acc; rfl
  | cons a rest ih =>
    intro acc
    simp only [List.foldl_cons]
    cases hp : p a with
    | some v =>
      simp only [hp]
      exact ih (some v)
    | none =>
      simp only [hp]
      exact ih acc

theorem extract_if_char (st : RangeScan) :
    (if (st.hasStart && st.hasEnd && decide (st.start ≤ st.stop)) = true then
        some (⟨st.start, st.stop⟩ : ValidatorRange)
      else none) =
      match optStart st, optEnd st with
      | some s, some e => if s ≤ e then some ⟨s, e⟩ else none
      | _, _ => none := by
  unfold optStart optEnd
  cases h1 : st.hasStart <;> cases h2 : st.hasEnd <;> simp [h1, h2]

theorem extractValidatorRange_eq (value : String) (off : Int) :
    extractValidatorRange value off =
      match lastStart value, lastEnd value with
      | some s, some e => if s + off ≤ e + off then some ⟨s + off, e + off⟩ else none
      | _, _ => none := by
  have hs : optStart ((goFields value).foldl (scanRangeField off) ⟨0, 0, false, false⟩) =
      (lastStart value).map (· + off) := by
    rw [foldl_scan_optStart]
    exact foldl_offset_map off parseStartTok (goFields value) none
  have he : optEnd ((goFields value).foldl (scanRangeField off) ⟨0, 0, false, false⟩) =
      (lastEnd value).map (· + off) := by
    rw [foldl_scan_optEnd]
    exact foldl_offset_map off parseEndTok (goFields value) none
  have h2 : extractValidatorRange value off =
      match optStart ((goFields value).foldl (scanRangeField off) ⟨0, 0, false, false⟩),
        optEnd ((goFields value).foldl (scanRangeField off) ⟨0, 0, false, false⟩) with
      | some s, some e => if s ≤ e then some ⟨s, e⟩ else none
      | _, _ => none :=
    extract_if_char ((goFields value).foldl (scanRangeField off) ⟨0, 0, false, false⟩)
  rw [h2, hs, he]
  cases lastStart value <;> cases lastEnd value <;> rfl

theorem foldl_last_isSome (p : String → Option Int) (fields : List String) :
    ∀ acc : Option Int,
      (fields.foldl
          (fun acc attr =>
            match p attr with
            | some v => some v
            | none => acc)
          acc).isSome = true ↔
        (acc.isSome = true ∨ ∃ attr ∈ fields, (p attr).isSome = true) := by
  induction fields with
  | nil =>
    intro acc
    simp
  | cons a rest ih =>
    intro acc
    simp only [List.foldl_cons]
    cases hp : p a with
    | some v =>
      rw [ih]
      constructor
      · intro _
        exact Or.inr ⟨a, List.mem_cons_self _ _, by simp [hp]⟩
      · intro _
        exact Or.inl (by simp)
    | none =>
      rw [ih]
      constructor
      · rintro (h | ⟨attr, hattr, hsome⟩)
        · exact Or.inl h
        · exact Or.inr ⟨attr, List.mem_cons_of_mem _ hattr, hsome⟩
      · rintro (h | ⟨attr, hattr, hsome⟩)
        · exact Or.inl h
        · rcases List.mem_cons.mp hattr with h1 | h1
          · subst h1
            rw [hp] at hsome
            exact absurd hsome (by simp)
          · exact Or.inr ⟨attr, h1, hsome⟩

/-- C5: the parser produces a range for a value if and only if the value
holds a parseable `validator_start=` token and a parseable `validator_end=`
token whose offset-adjusted end is ≥ the offset-adjusted start; the range is
`[start+offset, end+offset)`; with a token missing or end < start the result
is `none` — silently range-less, the function has no failure mode. -/
theorem C5_extract_range_characterisation :
    ∀ value rangeOffset r,
      (extractValidatorRange value rangeOffset = some r ↔
        ∃ s e, lastStart value = some s ∧ lastEnd value = some e ∧
          s + rangeOffset ≤ e + rangeOffset ∧
          r = ⟨s + rangeOffset, e + rangeOffset⟩) ∧
      ((lastStart value).isSome = true ↔
        ∃ attr ∈ goFields value, (parseStartTok attr).isSome = true) ∧
      ((lastEnd value).isSome = true ↔
        ∃ attr ∈ goFields value, (parseEndTok attr).isSome = true) := by
  intro value rangeOffset r
  refine ⟨?_, ?_, ?_⟩
  · rw [extractValidatorRange_eq]
    cases hls : lastStart value with
    | none =>
      constructor
      · intro h
        simp at h
      · rintro ⟨s, e, hs, _⟩
        exact absurd hs (by simp)
    | some s =>
      cases hle : lastEnd value with
      | none =>
        constructor
        · intro h
          simp at h
        · rintro ⟨s', e', _, he', _⟩
          exact absurd he' (by simp)
      | some e =>
        show (if s + rangeOffset ≤ e + rangeOffset then
            some (⟨s + rangeOffset, e + rangeOffset⟩ : ValidatorRange)
          else none) = some r ↔ _
        constructor
        · intro h
          by_cases hcmp : s + rangeOffset ≤ e + rangeOffset
          · rw [if_pos hcmp] at h
            injection h with hr
            exact ⟨s, e, rfl, rfl, hcmp, hr.symm⟩
          · rw [if_neg hcmp] at h
            exact absurd h (by simp)
        · rintro ⟨s', e', hs', he', hcmp, hr⟩
          injection hs' with hss
          injection he' with hee
          subst hss
          subst hee
          rw [if_pos hcmp, hr]
  · have h := foldl_last_isSome parseStartTok (goFields value) none
    simp only [Option.isSome_none, Bool.false_eq_true, false_or] at h
    exact h
  · have h := foldl_last_isSome parseEndTok (goFields value) none
    simp only [Option.isSome_none, Bool.false_eq_true, false_or] at h
    exact h

/-! ### Node-evolution lemmas: the parser only ever adds tags -/

theorem attrStep_Tags (n : Node) (attr : String) : (attrStep n attr).Tags = n.Tags := by
  unfold attrStep
  split <;> try rfl
  split <;> try rfl
  dsimp only
  split <;> rfl

theorem attrStep_Groups (n : Node) (attr : String) : (attrStep n attr).Groups = n.Groups := by
  unfold attrStep
  split <;> try rfl
  split <;> try rfl
  dsimp only
  split <;> rfl

theorem attrStep_VR (n : Node) (attr : String) :
    (attrStep n attr).ValidatorRanges = n.ValidatorRanges := by
  unfold attrStep
  split <;> try rfl
  split <;> try rfl
  dsimp only
  split <;> rfl

theorem parseAttrs_Tags (v : String) : ∀ n, (parseAttrs n v).Tags = n.Tags := by
  unfold parseAttrs
  generalize goFields v = fields
  induction fields with
  | nil => intro n; rfl
  | cons a rest ih =>
    intro n
    simp only [List.foldl_cons]
    rw [ih (attrStep n a), attrStep_Tags]

theorem parseAttrs_Groups (v : String) : ∀ n, (parseAttrs n v).Groups = n.Groups := by
  unfold parseAttrs
  generalize goFields v = fields
  induction fields with
  | nil => intro n; rfl
  | cons a rest ih =>
    intro n
    simp only [List.foldl_cons]
    rw [ih (attrStep n a), attrStep_Groups]

theorem parseAttrs_VR (v : String) :
    ∀ n, (parseAttrs n v).ValidatorRanges = n.ValidatorRanges := by
  unfold parseAttrs
  generalize goFields v = fields
  induction fields with
  | nil => intro n; rfl
  | cons a rest ih =>
    intro n
    simp only [List.foldl_cons]
    rw [ih (attrStep n a), attrStep_VR]

theorem addTag_Groups (n : Node) (tag : String) : (addTag n tag).Groups = n.Groups := by
  unfold addTag
  split <;> rfl

theorem addTag_VR (n : Node) (tag : String) :
    (addTag n tag).ValidatorRanges = n.ValidatorRanges := by
  unfold addTag
  split <;> rfl

theorem addGroup_Tags (n : Node) (g : String) : (addGroup n g).Tags = n.Tags := by
  unfold addGroup
  split <;> rfl

theorem addGroup_VR (n : Node) (g : String) :
    (addGroup n g).ValidatorRanges = n.ValidatorRanges := by
  unfold addGroup
  split <;> rfl

theorem addTag_Tags_mono (n : Node) (tag t : String) (h : t ∈ n.Tags) :
    t ∈ (addTag n tag).Tags := by
  unfold addTag
  split
  · exact h
  · exact List.mem_append_left _ h

theorem foldl_addTag_mono (tags : List String) :
    ∀ n t, t ∈ n.Tags → t ∈ (tags.foldl addTag n).Tags := by
  induction tags with
  | nil => exact fun n t h => h
  | cons tg rest ih =>
    intro n t h
    exact ih _ t (addTag_Tags_mono n tg t h)

theorem foldl_addTag_adds (tags : List String) :
    ∀ n t, t ∈ tags → t ∈ (tags.foldl addTag n).Tags := by
  induction tags with
  | nil =>
    intro n t h
    exact absurd h (List.not_mem_nil t)
  | cons tg rest ih =>
    intro n t h
    rcases List.mem_cons.mp h with h1 | h1
    · subst h1
      apply foldl_addTag_mono rest
      unfold addTag
      by_cases hc : containsStr n.Tags t = true
      · rw [if_pos hc]
        exact (containsStr_iff _ _).mp hc
      · rw [if_neg hc]
        exact List.mem_append_right _ (List.mem_singleton.mpr rfl)
    · exact ih _ t h1

theorem foldl_addTag_Groups (tags : List String) :
    ∀ n, (tags.foldl addTag n).Groups = n.Groups := by
  induction tags with
  | nil => exact fun n => rfl
  | cons tg rest ih =>
    intro n
    simp only [List.foldl_cons]
    rw [ih (addTag n tg), addTag_Groups]

theorem foldl_addTag_VR (tags : List String) :
    ∀ n, (tags.foldl addTag n).ValidatorRanges = n.ValidatorRanges := by
  induction tags with
  | nil => exact fun n => rfl
  | cons tg rest ih =>
    intro n
    simp only [List.foldl_cons]
    rw [ih (addTag n tg), addTag_VR]

theorem foldl_addTag_nodup (tags : List String) :
    ∀ n, n.Tags.Nodup → (tags.foldl addTag n).Tags.Nodup := by
  induction tags with
  | nil => exact fun n h => h
  | cons tg rest ih =>
    intro n h
    simp only [List.foldl_cons]
    apply ih
    unfold addTag
    by_cases hc : containsStr n.Tags tg = true
    · rw [if_pos hc]
      exact h
    · rw [if_neg hc]
      have hnm : tg ∉ n.Tags := fun hmem => hc ((containsStr_iff _ _).mpr hmem)
      simp [List.nodup_append, h, hnm]

theorem processValue_Tags (off : Int) (v : String) (n : Node) :
    (processValue off v n).Tags = n.Tags := by
  unfold processValue
  split
  · rw [parseAttrs_Tags]
    split <;> rfl
  · rfl

theorem processValue_Groups (off : Int) (v : String) (n : Node) :
    (processValue off v n).Groups = n.Groups := by
  unfold processValue
  split
  · rw [parseAttrs_Groups]
    split <;> rfl
  · rfl

/-! ### C9 — tag propagation through `parseSection` and `ParseInventory` -/

theorem processKey_tags_mono (g : String) (stags : List String) (sn : String) (off : Int)
    (nodes : List (String × Node)) (key : IniKey) (k : String) (n : Node) (t : String)
    (hl : lookupA nodes k = some n) (ht : t ∈ n.Tags) :
    ∃ n', lookupA (processKey g stags sn off nodes key) k = some n' ∧ t ∈ n'.Tags := by
  unfold processKey
  rw [lookupA_setA]
  by_cases hk : nodeNameOf key.name = k
  · rw [if_pos hk]
    subst hk
    refine ⟨_, rfl, ?_⟩
    rw [processValue_Tags]
    apply foldl_addTag_mono
    rw [addGroup_Tags]
    unfold getOrCreate
    rw [hl]
    exact ht
  · rw [if_neg hk]
    exact ⟨n, hl, ht⟩

theorem processKey_tags_adds (g : String) (stags : List String) (sn : String) (off : Int)
    (nodes : List (String × Node)) (key : IniKey) (t : String) (ht : t ∈ stags) :
    ∃ n', lookupA (processKey g stags sn off nodes key) (nodeNameOf key.name) = some n' ∧
      t ∈ n'.Tags := by
  unfold processKey
  rw [lookupA_setA, if_pos rfl]
  refine ⟨_, rfl, ?_⟩
  rw [processValue_Tags]
  exact foldl_addTag_adds stags _ t ht

theorem foldl_processKey_tags_mono (g : String) (stags : List String) (sn : String)
    (off : Int) (keys : List IniKey) :
    ∀ nodes k n t, lookupA nodes k = some n → t ∈ n.Tags →
      ∃ n', lookupA (keys.foldl (processKey g stags sn off) nodes) k = some n' ∧
        t ∈ n'.Tags := by
  induction keys with
  | nil => exact fun nodes k n t hl ht => ⟨n, hl, ht⟩
  | cons ky rest ih =>
    intro nodes k n t hl ht
    simp only [List.foldl_cons]
    obtain ⟨n1, hl1, ht1⟩ := processKey_tags_mono g stags sn off nodes ky k n t hl ht
    exact ih _ k n1 t hl1 ht1

theorem foldl_processKey_tags_adds (g : String) (stags : List String) (sn : String)
    (off : Int) (t : String) (ht : t ∈ stags) (ky : IniKey) :
    ∀ keys : List IniKey, ky ∈ keys → ∀ nodes,
      ∃ n', lookupA (keys.foldl (processKey g stags sn off) nodes) (nodeNameOf ky.name) =
        some n' ∧ t ∈ n'.Tags := by
  intro keys
  induction keys with
  | nil =>
    intro h
    exact absurd h (List.not_mem_nil ky)
  | cons k0 rest ih =>
    intro hky nodes
    simp only [List.foldl_cons]
    rcases List.mem_cons.mp hky with h1 | h1
    · subst h1
      obtain ⟨n1, hl1, ht1⟩ := processKey_tags_adds g stags sn off nodes ky t ht
      exact foldl_processKey_tags_mono g stags sn off rest _ _ n1 t hl1 ht1
    · exact ih h1 _

theorem parseSection_tags_mono (sec : IniSection) (sn : String) (off : Int)
    (nodes : List (String × Node)) (k : String) (n : Node) (t : String)
    (hl : lookupA nodes k = some n) (ht : t ∈ n.Tags) :
    ∃ n', lookupA (parseSection sec nodes sn off) k = some n' ∧ t ∈ n'.Tags := by
  unfold parseSection
  exact foldl_processKey_tags_mono sec.name (extractTags [sec.name]) sn off sec.keys
    nodes k n t hl ht

theorem sectionsFold_tags_mono (sn : String) (off : Int) :
    ∀ sections : List IniSection, ∀ nodes k n t, lookupA nodes k = some n → t ∈ n.Tags →
      ∃ n', lookupA (sections.foldl (sectionStep sn off) nodes) k = some n' ∧ t ∈ n'.Tags := by
  intro sections
  induction sections with
  | nil => exact fun nodes k n t hl ht => ⟨n, hl, ht⟩
  | cons s0 rest ih =>
    intro nodes k n t hl ht
    simp only [List.foldl_cons]
    unfold sectionStep
    by_cases hdef : s0.name = "DEFAULT"
    · rw [if_pos hdef]
      exact ih nodes k n t hl ht
    · rw [if_neg hdef]
      obtain ⟨n1, hl1, ht1⟩ := parseSection_tags_mono s0 sn off nodes k n t hl ht
      exact ih _ k n1 t hl1 ht1

theorem sectionsFold_tags_adds (sn : String) (off : Int) (sec : IniSection)
    (hdef : sec.name ≠ "DEFAULT") (ky : IniKey) (hky : ky ∈ sec.keys) (t : String)
    (ht : t ∈ extractTags [sec.name]) :
    ∀ sections : List IniSection, sec ∈ sections → ∀ nodes0,
      ∃ n', lookupA (sections.foldl (sectionStep sn off) nodes0) (nodeNameOf ky.name) =
        some n' ∧ t ∈ n'.Tags := by
  intro sections
  induction sections with
  | nil =>
    intro h
    exact absurd h (List.not_mem_nil sec)
  | cons s0 rest ih =>
    intro hsec nodes0
    simp only [List.foldl_cons]
    rcases List.mem_cons.mp hsec with h1 | h1
    · subst h1
      have hstep : sectionStep sn off nodes0 sec =
          sec.keys.foldl (processKey sec.name (extractTags [sec.name]) sn off) nodes0 := by
        unfold sectionStep
        rw [if_neg hdef]
        rfl
      rw [hstep]
      obtain ⟨n1, hl1, ht1⟩ :=
        foldl_processKey_tags_adds sec.name (extractTags [sec.name]) sn off t ht ky
          sec.keys hky nodes0
      exact sectionsFold_tags_mono sn off rest _ _ n1 t hl1 ht1
    · exact ih h1 _

theorem processKey_nodupKeys (g : String) (stags : List String) (sn : String) (off : Int)
    (nodes : List (String × Node)) (key : IniKey)
    (h : (nodes.map Prod.fst).Nodup) :
    ((processKey g stags sn off nodes key).map Prod.fst).Nodup := by
  unfold processKey
  exact nodupKeys_setA _ _ h

theorem sectionsFold_nodupKeys (sn : String) (off : Int) :
    ∀ sections : List IniSection, ∀ nodes, (nodes.map Prod.fst).Nodup →
      (((sections.foldl (sectionStep sn off) nodes).map Prod.fst)).Nodup := by
  intro sections
  induction sections with
  | nil => exact fun nodes h => h
  | cons s0 rest ih =>
    intro nodes h
    simp only [List.foldl_cons]
    apply ih
    unfold sectionStep
    by_cases hdef : s0.name = "DEFAULT"
    · rw [if_pos hdef]
      exact h
    · rw [if_neg hdef]
      unfold parseSection
      generalize s0.keys = keys
      induction keys generalizing nodes with
      | nil => exact h
      | cons k0 krest kih =>
        simp only [List.foldl_cons]
        exact kih _ (processKey_nodupKeys _ _ _ _ _ _ h)

theorem lookupA_filter_of_nodup {p : String × Node → Bool} {nodes : List (String × Node)}
    {k : String} {n : Node} (hnd : (nodes.map Prod.fst).Nodup)
    (h : lookupA (nodes.filter p) k = some n) : lookupA nodes k = some n :=
  lookupA_of_mem_nodup hnd (List.mem_of_mem_filter (mem_of_lookupA h))

theorem vc_mem_extractTags (g : String) (h : goContains g "validator" = true) :
    "vc:validator" ∈ extractTags [g] := by
  show "vc:validator" ∈ [] ++ tagsForGroup g
  rw [List.nil_append]
  unfold tagsForGroup
  simp [h]

/-- C9 counterexample: a section named `validator` (which contains the
"validator" fragment) yields a node whose tag list is exactly
`["vc:validator"]` — the claimed `role:validator` tag is absent. -/
theorem C9_counterexample_role_tag :
    goContains "validator" "validator" = true ∧
    ((lookupA (ParseInventory [⟨"validator", [⟨"n1", "validator_start=0 validator_end=8"⟩]⟩]
        "u" "s" 0).Nodes "n1").map Node.Tags = some ["vc:validator"] ∧
      ("role:validator" ∈ (["vc:validator"] : List String)) = False) := by
  refine ⟨by decide, by decide, by simp⟩

/-- C9 as amended: every node of a section whose group name contains the
`"validator"` fragment receives the tag `vc:validator` (not
`role:validator`) in the `ParseInventory` result. -/
theorem C9_amended_vc_tag :
    ∀ sections sourceURL sourceName rangeOffset (sec : IniSection) (key : IniKey)
      (node : Node),
      sec ∈ sections → sec.name ≠ "DEFAULT" →
      goContains sec.name "validator" = true →
      key ∈ sec.keys →
      lookupA (ParseInventory sections sourceURL sourceName rangeOffset).Nodes
        (nodeNameOf key.name) = some node →
      "vc:validator" ∈ node.Tags := by
  intro sections sourceURL sourceName rangeOffset sec key node hsec hdef hval hky hlook
  have hnd : (((sections.foldl (sectionStep sourceName rangeOffset) []).map Prod.fst)).Nodup :=
    sectionsFold_nodupKeys sourceName rangeOffset sections [] (by simp)
  have hlook2 : lookupA (sections.foldl (sectionStep sourceName rangeOffset) [])
      (nodeNameOf key.name) = some node :=
    lookupA_filter_of_nodup hnd hlook
  obtain ⟨n', hl', ht'⟩ :=
    sectionsFold_tags_adds sourceName rangeOffset sec hdef key hky "vc:validator"
      (vc_mem_extractTags sec.name hval) sections hsec []
  rw [hlook2] at hl'
  injection hl' with hnn
  rw [← hnn] at ht'
  exact ht'

/-- Witness for C9's amended theorem at the concrete one-section input. -/
theorem C9_witness :
    "vc:validator" ∈
      (((lookupA (ParseInventory [⟨"validator", [⟨"n1", "validator_start=0 validator_end=8"⟩]⟩]
        "u" "s" 0).Nodes "n1").getD
          { Groups := [], Tags := [], Attributes := [], ValidatorRanges := [], Source := "" }).Tags) :=
  C9_amended_vc_tag [⟨"validator", [⟨"n1", "validator_start=0 validator_end=8"⟩]⟩] "u" "s" 0
    ⟨"validator", [⟨"n1", "validator_start=0 validator_end=8"⟩]⟩
    ⟨"n1", "validator_start=0 validator_end=8"⟩ _
    (by decide) (by decide) (by decide) (by decide) (by decide)

/-! ### C10 — a node whose only range is empty is retained -/

theorem addToIndex_lookup_other (idx : List (String × List String)) (key nm t : String)
    (h : key ≠ t) : lookupA (addToIndex idx key nm) t = lookupA idx t := by
  unfold addToIndex
  cases h0 : lookupA idx key <;> rw [lookupA_setA, if_neg h]

theorem fold_addToIndex_notmem (nm : String) (tagsList : List String) :
    ∀ idx0 t, t ∉ tagsList →
      lookupA (tagsList.foldl (fun idx tg => addToIndex idx tg nm) idx0) t =
        lookupA idx0 t := by
  induction tagsList with
  | nil =>
    intro idx0 t _
    rfl
  | cons tg rest ih =>
    intro idx0 t h
    simp only [List.foldl_cons]
    have hne : tg ≠ t := fun he => h (he ▸ List.mem_cons_self _ _)
    rw [ih _ t (fun hm => h (List.mem_cons_of_mem _ hm)),
      addToIndex_lookup_other _ _ _ _ hne]

theorem fold_addToIndex_mem_nodup (nm : String) :
    ∀ tagsList : List String, tagsList.Nodup →
      ∀ idx0 t, t ∈ tagsList → lookupA idx0 t = none →
        lookupA (tagsList.foldl (fun idx tg => addToIndex idx tg nm) idx0) t =
          some [nm] := by
  intro tagsList
  induction tagsList with
  | nil =>
    intro _ idx0 t h
    exact absurd h (List.not_mem_nil t)
  | cons tg rest ih =>
    intro hnd idx0 t hmem h0
    simp only [List.foldl_cons]
    rcases List.mem_cons.mp hmem with h1 | h1
    · subst h1
      have hnotin : t ∉ rest := (List.nodup_cons.mp hnd).1
      rw [fold_addToIndex_notmem nm rest _ t hnotin]
      unfold addToIndex
      rw [h0, lookupA_setA, if_pos rfl]
    · apply ih (List.nodup_cons.mp hnd).2 _ t h1
      have hne : tg ≠ t := fun he => (List.nodup_cons.mp hnd).1 (he ▸ h1)
      rw [addToIndex_lookup_other _ _ _ _ hne]
      exact h0

/-- The single node produced by a one-section, one-key inventory (the
node's name plays no role in its construction). -/
def soloNode (g v sourceName : String) (off : Int) : Node :=
  processValue off v ((extractTags [g]).foldl addTag (addGroup (getOrCreate [] "" sourceName) g))

/-- C10: a node whose only extracted range is empty (`end = start`, which
passes the `end >= start` test) survives the empty-range-list filter,
appears in the node mapping and the group/tag indices, and contributes 0 to
the summary total. -/
theorem C10_empty_range_node_retained :
    ∀ (g keyName v sourceURL sourceName : String) (off x : Int),
      g ≠ "DEFAULT" →
      extractValidatorRange v off = some ⟨x, x⟩ →
      ∃ node,
        lookupA (ParseInventory [⟨g, [⟨keyName, v⟩]⟩] sourceURL sourceName off).Nodes
          (nodeNameOf keyName) = some node ∧
        node.ValidatorRanges = [some ⟨x, x⟩] ∧
        lookupA (ParseInventory [⟨g, [⟨keyName, v⟩]⟩] sourceURL sourceName off).Groups g =
          some [nodeNameOf keyName] ∧
        (∀ t ∈ node.Tags,
          lookupA (ParseInventory [⟨g, [⟨keyName, v⟩]⟩] sourceURL sourceName off).Tags t =
            some [nodeNameOf keyName]) ∧
        (ParseInventory [⟨g, [⟨keyName, v⟩]⟩] sourceURL sourceName off).Validators.TotalCount
          = 0 := by
  intro g keyName v sourceURL sourceName off x hdef hx
  have hvne : v ≠ "" := by
    intro hv
    rw [hv] at hx
    exact Option.noConfusion hx
  have hVR : (soloNode g v sourceName off).ValidatorRanges = [some ⟨x, x⟩] := by
    unfold soloNode processValue
    rw [if_pos hvne, parseAttrs_VR, hx]
    show ((extractTags [g]).foldl addTag
        (addGroup (getOrCreate [] "" sourceName) g)).ValidatorRanges ++ [some ⟨x, x⟩] =
      [some ⟨x, x⟩]
    rw [foldl_addTag_VR, addGroup_VR]
    rfl
  have hGroups : (soloNode g v sourceName off).Groups = [g] := by
    unfold soloNode
    rw [processValue_Groups, foldl_addTag_Groups]
    rfl
  have hTagsNodup : (soloNode g v sourceName off).Tags.Nodup := by
    unfold soloNode
    rw [processValue_Tags]
    apply foldl_addTag_nodup
    rw [addGroup_Tags]
    exact List.nodup_nil
  have hfold : ([⟨g, [⟨keyName, v⟩]⟩] : List IniSection).foldl
      (sectionStep sourceName off) [] =
      [(nodeNameOf keyName, soloNode g v sourceName off)] := by
    simp only [List.foldl_cons, List.foldl_nil]
    unfold sectionStep
    rw [if_neg hdef]
    rfl
  have hnodes : (ParseInventory [⟨g, [⟨keyName, v⟩]⟩] sourceURL sourceName off).Nodes =
      [(nodeNameOf keyName, soloNode g v sourceName off)] := by
    show (([⟨g, [⟨keyName, v⟩]⟩] : List IniSection).foldl (sectionStep sourceName off)
        []).filter (fun e => e.2.ValidatorRanges.length > 0) = _
    rw [hfold]
    simp [hVR]
  refine ⟨soloNode g v sourceName off, ?_, hVR, ?_, ?_, ?_⟩
  · rw [hnodes]
    simp [lookupA]
  · rw [show (ParseInventory [⟨g, [⟨keyName, v⟩]⟩] sourceURL sourceName off).Groups =
        (buildGroupsAndTags
          (ParseInventory [⟨g, [⟨keyName, v⟩]⟩] sourceURL sourceName off).Nodes).1 from rfl,
      hnodes]
    show lookupA ((soloNode g v sourceName off).Groups.foldl
        (fun gi grp => addToIndex gi grp (nodeNameOf keyName)) []) g = _
    rw [hGroups]
    simp only [List.foldl_cons, List.foldl_nil]
    unfold addToIndex
    rw [show lookupA ([] : List (String × List String)) g = none from rfl, lookupA_setA,
      if_pos rfl]
  · intro t ht
    rw [show (ParseInventory [⟨g, [⟨keyName, v⟩]⟩] sourceURL sourceName off).Tags =
        (buildGroupsAndTags
          (ParseInventory [⟨g, [⟨keyName, v⟩]⟩] sourceURL sourceName off).Nodes).2 from rfl,
      hnodes]
    show lookupA ((soloNode g v sourceName off).Tags.foldl
        (fun ti tg => addToIndex ti tg (nodeNameOf keyName)) []) t = _
    exact fold_addToIndex_mem_nodup (nodeNameOf keyName) _ hTagsNodup [] t ht rfl
  · rw [show (ParseInventory [⟨g, [⟨keyName, v⟩]⟩] sourceURL sourceName off).Validators.TotalCount =
        calculateTotalValidators
          (ParseInventory [⟨g, [⟨keyName, v⟩]⟩] sourceURL sourceName off).Nodes from rfl,
      hnodes]
    unfold calculateTotalValidators
    simp only [List.foldl_cons, List.foldl_nil]
    show (soloNode g v sourceName off).ValidatorRanges.foldl rangeTotalStep 0 = 0
    rw [hVR]
    simp [rangeTotalStep]

/-- Witness for C10 at `validator_start=5 validator_end=5` (the empty range
`[5,5)`). -/
theorem C10_witness :
    ∃ node,
      lookupA (ParseInventory [⟨"grp", [⟨"n1", "validator_start=5 validator_end=5"⟩]⟩]
        "u" "s" 0).Nodes (nodeNameOf "n1") = some node ∧
      node.ValidatorRanges = [some ⟨5, 5⟩] ∧
      lookupA (ParseInventory [⟨"grp", [⟨"n1", "validator_start=5 validator_end=5"⟩]⟩]
        "u" "s" 0).Groups "grp" = some [nodeNameOf "n1"] ∧
      (∀ t ∈ node.Tags,
        lookupA (ParseInventory [⟨"grp", [⟨"n1", "validator_start=5 validator_end=5"⟩]⟩]
          "u" "s" 0).Tags t = some [nodeNameOf "n1"]) ∧
      (ParseInventory [⟨"grp", [⟨"n1", "validator_start=5 validator_end=5"⟩]⟩]
        "u" "s" 0).Validators.TotalCount = 0 :=
  C10_empty_range_node_retained "grp" "n1" "validator_start=5 validator_end=5" "u" "s" 0 5
    (by decide) (by decide)

end Cartographoor
